import Mathlib

/-!
Shallow embedding of `hallmasterapi.py` (HallmasterAPI).

The embedded core is:
  * `get_bookings` — collation of raw per-room booking entries into deduplicated
    `Booking` records keyed by `(title, start, end)` (source lines 91-113);
  * `search` — the tiered term/acronym matcher over collated bookings
    (source lines 115-152).

Network retrieval (`requests.get`, HTML parsing) is out of scope; the room
registry and the description fetcher appear as explicit parameters
(`reg : List (String × RoomInfo)` for `self.rooms_info`, `fetch : Int → String`
for `self.get_description`).  Timestamps travel as the raw strings the JSON
carries (the Python code never parses them inside the core).  Python string
operations are modelled over `List Char`: `needle in haystack` as `pyIn`,
`str.lower()` as `String.toLower` (ASCII data throughout), and the regex
`\b\w` as "word character not preceded by a word character" with the ASCII
word-character class `[A-Za-z0-9_]`.  Mutation of `Booking` objects shared by
reference between the bookings list and the two match lists is modelled by a
`SearchState` whose match lists hold indices into the mutable bookings list,
resolved against the final state when the result list is materialised, exactly
as Python resolves object references when the caller reads the returned list.
-/

/-- A Python `needle.isPrefixOf`-style check over character lists:
`listStartsWith n h` is true when `h` begins with `n`. -/
def listStartsWith : List Char → List Char → Bool
  | [], _ => true
  | _ :: _, [] => false
  | a :: as, b :: bs => a = b && listStartsWith as bs

/-- Python's substring containment `needle in haystack` over char lists:
some suffix of the haystack starts with the needle (true for the empty
needle, as in Python). -/
def listIsSubstr (needle : List Char) : List Char → Bool
  | [] => listStartsWith needle []
  | c :: rest => listStartsWith needle (c :: rest) || listIsSubstr needle rest

/-- Python's `needle in haystack` on strings. -/
def pyIn (needle haystack : String) : Bool :=
  listIsSubstr needle.toList haystack.toList

/-- ASCII word character, the class matched by `\w` on the data this API
handles: letters, digits, underscore. -/
def isWordChar (c : Char) : Bool := c.isAlpha || c.isDigit || c = '_'

/-- The characters matched by `re.findall(r'\b\w', term)`: every word
character not immediately preceded by a word character.  The boolean state
records whether the previous character was a word character. -/
def acronymChars : Bool → List Char → List Char
  | _, [] => []
  | inWord, c :: rest =>
    if isWordChar c then
      (if inWord then acronymChars true rest else c :: acronymChars true rest)
    else acronymChars false rest

/-- Source line 125: `acronym = ''.join(re.findall(r'\b\w', term)).upper()`. -/
def acronym (term : String) : String :=
  String.mk ((acronymChars false term.toList).map Char.toUpper)

/-- One raw booking entry of the JSON array returned by `GetBookings`
(fields `Id`, `title`, `start`, `end`, `color`; `end` is spelled `end_`
because `end` is a Lean keyword). -/
structure RawEntry where
  id : Int
  title : String
  start : String
  end_ : String
  color : String
deriving DecidableEq

/-- One value of `self.rooms_info` (source lines 60-64). -/
structure RoomInfo where
  id : Int
  name : String
  colour : String
deriving DecidableEq

/-- The `Booking` class (source lines 11-26); `end` is spelled `end_`. -/
structure Booking where
  id : Int
  title : String
  start : String
  end_ : String
  rooms : List String
  description : String := ""
deriving DecidableEq

/-- The collation key `(booking["title"], booking["start"], booking["end"])`
of source line 94. -/
abbrev BKey := String × String × String

/-- Key of a raw entry. -/
def ekey (e : RawEntry) : BKey := (e.title, e.start, e.end_)

/-- Key of a collated booking. -/
def bkey (b : Booking) : BKey := (b.title, b.start, b.end_)

/-- The reserved placeholder titles of source line 93. -/
def reservedTitles : List String := ["Private Booking", "Provisional Booking"]

/-- `self.rooms_info[color]["name"]` (source line 95), with the Python
`KeyError` on an unknown colour surfacing as `none`. -/
def lookupRoom (reg : List (String × RoomInfo)) (color : String) : Option String :=
  (reg.find? (fun p => p.1 == color)).map (fun p => p.2.name)

/-- `key in collated_entries.keys()` (source line 108). -/
def hasKey (acc : List (BKey × Booking)) (k : BKey) : Bool :=
  acc.any (fun p => decide (p.1 = k))

/-- `collated_entries[key].rooms.append(room)` (source line 109): update the
unique association-list entry carrying key `k` by appending `room` to its
booking's room list. -/
def appendRoom (k : BKey) (room : String) : List (BKey × Booking) → List (BKey × Booking)
  | [] => []
  | p :: rest =>
    if p.1 = k then (p.1, { p.2 with rooms := p.2.rooms ++ [room] }) :: rest
    else p :: appendRoom k room rest

/-- The collation loop of source lines 92-111.  `collated_entries` is an
insertion-ordered association list, as a Python dict is.  A colour absent
from the registry aborts the whole call (`KeyError`), modelled by `none`. -/
def collate (reg : List (String × RoomInfo)) (fetch : Int → String) (gd : Bool) :
    List RawEntry → List (BKey × Booking) → Option (List (BKey × Booking))
  | [], acc => some acc
  | e :: rest, acc =>
    if e.title ∈ reservedTitles then
      collate reg fetch gd rest acc
    else
      match lookupRoom reg e.color with
      | none => none
      | some room =>
        if hasKey acc (ekey e) then
          collate reg fetch gd rest (appendRoom (ekey e) room acc)
        else
          collate reg fetch gd rest
            (acc ++ [(ekey e,
              { id := e.id, title := e.title, start := e.start, end_ := e.end_,
                rooms := [room], description := if gd then fetch e.id else "" })])

/-- `HallmasterAPI.get_bookings` (source lines 68-113) restricted to its
collation core: the raw JSON entries arrive as `entries`, the room registry
and the description fetcher as parameters, and `gd` is the `get_desc` flag.
Returns `list(collated_entries.values())`. -/
def get_bookings (reg : List (String × RoomInfo)) (fetch : Int → String)
    (gd : Bool) (entries : List RawEntry) : Option (List Booking) :=
  (collate reg fetch gd entries []).map (fun l => l.map (fun p => p.2))

/-- The mutable state of a `search` call: the bookings list whose elements
are mutated in place when descriptions are fetched, the two match lists
(`confident_matches`, `somewhat_sure_matches`) held as indices into the
bookings list — Python appends object references, so a later mutation of a
booking is visible through the match lists — and the ordered log of ids
passed to `get_description`, recording each fetcher invocation. -/
structure SearchState where
  bookings : List Booking
  confident : List Nat
  possible : List Nat
  fetchLog : List Int
deriving DecidableEq

/-- Python's `str.lower()` on the ASCII data this API handles, written over
the character list so that it evaluates by kernel reduction. -/
def strToLower (s : String) : String := String.mk (s.toList.map Char.toLower)

/-- Placeholder booking used only to give list indexing a total type; every
index stored in a match list is in range. -/
def bDefault : Booking :=
  { id := 0, title := "", start := "", end_ := "", rooms := [], description := "" }

/-- The body of the inner `for item in bookings:` loop (source lines
127-150) at index `i`.  Returns the updated state and whether the loop
`break`s after this iteration. -/
def scanStep (fetch : Int → String) (term acrL : String) (i : Nat)
    (st : SearchState) : SearchState × Bool :=
  match st.bookings.get? i with
  | none => (st, true)
  | some item =>
    if pyIn (strToLower term) (strToLower item.title) then
      -- lines 131-133: unconditional fetch, append to confident, no break
      let item1 := { item with description := fetch item.id }
      ({ st with bookings := st.bookings.set i item1,
                 fetchLog := st.fetchLog ++ [item.id],
                 confident := st.confident ++ [i] }, false)
    else
      -- lines 136-137: fetch only when the description is still empty
      let fetchNeeded : Bool := decide (item.description = "")
      let item1 := if fetchNeeded then { item with description := fetch item.id } else item
      let st1 : SearchState :=
        if fetchNeeded then
          { st with bookings := st.bookings.set i item1,
                    fetchLog := st.fetchLog ++ [item.id] }
        else st
      -- lines 140-141: term in description, append to possible, no break
      let st2 : SearchState :=
        if pyIn (strToLower term) (strToLower item1.description) then
          { st1 with possible := st1.possible ++ [i] }
        else st1
      -- lines 144-146: acronym in title, append to confident, break
      if pyIn acrL (strToLower item.title) then
        ({ st2 with confident := st2.confident ++ [i] }, true)
      -- lines 148-150: acronym in description, append to possible, break
      else if pyIn acrL (strToLower item1.description) then
        ({ st2 with possible := st2.possible ++ [i] }, true)
      else (st2, false)

/-- Run the inner loop from index `i` with `n` iterations of fuel (the
caller passes the bookings-list length, which every step preserves). -/
def scanFrom (fetch : Int → String) (term acrL : String) :
    Nat → Nat → SearchState → SearchState
  | 0, _, st => st
  | n + 1, i, st =>
    match scanStep fetch term acrL i st with
    | (st', true) => st'
    | (st', false) => scanFrom fetch term acrL n (i + 1) st'

/-- One iteration of the outer `for term in search_terms:` loop (source
lines 123-150): derive the acronym, then scan the whole bookings list. -/
def runTerm (fetch : Int → String) (st : SearchState) (term : String) : SearchState :=
  scanFrom fetch term (strToLower (acronym term)) st.bookings.length 0 st

/-- The whole search loop over all terms. -/
def runSearch (fetch : Int → String) (terms : List String) (st : SearchState) : SearchState :=
  terms.foldl (runTerm fetch) st

/-- Fresh state at the top of a `search` call: empty match lists, no
fetches performed yet. -/
def initState (bs : List Booking) : SearchState := ⟨bs, [], [], []⟩

/-- Read the booking a stored match-list index refers to back out of the
final state, as Python does when the caller dereferences the returned
object references. -/
def resolveB (st : SearchState) (i : Nat) : Booking := st.bookings.getD i bDefault

/-- `HallmasterAPI.search` (source lines 115-152) over an already-collated
bookings list: `return confident_matches + somewhat_sure_matches`. -/
def search (fetch : Int → String) (terms : List String) (bs : List Booking) : List Booking :=
  let st := runSearch fetch terms (initState bs)
  st.confident.map (resolveB st) ++ st.possible.map (resolveB st)

example : acronym "Annual General Meeting" = "AGM" := by decide
example : acronym "yoga" = "Y" := by decide
example : pyIn "b" "bingo night" = true := by decide

/-! ### Substring containment: characterisation and transitivity -/

theorem listStartsWith_iff (n : List Char) :
    ∀ h : List Char, listStartsWith n h = true ↔ ∃ t, h = n ++ t := by
  induction n with
  | nil => intro h; simp [listStartsWith]
  | cons a as ih =>
    intro h
    cases h with
    | nil => simp [listStartsWith]
    | cons b bs =>
      simp only [listStartsWith, Bool.and_eq_true, decide_eq_true_eq, ih,
        List.cons_append, List.cons.injEq]
      constructor
      · rintro ⟨rfl, t, rfl⟩; exact ⟨t, rfl, rfl⟩
      · rintro ⟨t, rfl, rfl⟩; exact ⟨rfl, t, rfl⟩

theorem listIsSubstr_iff (n : List Char) :
    ∀ h : List Char, listIsSubstr n h = true ↔ ∃ s t, h = s ++ n ++ t := by
  intro h
  induction h with
  | nil =>
    rw [listIsSubstr, listStartsWith_iff]
    constructor
    · rintro ⟨t, ht⟩; exact ⟨[], t, by simpa using ht⟩
    · rintro ⟨s, t, ht⟩
      obtain ⟨h1, h2⟩ := List.append_eq_nil.mp ht.symm
      obtain ⟨h3, h4⟩ := List.append_eq_nil.mp h1
      exact ⟨[], by simp [h4]⟩
  | cons c rest ih =>
    rw [listIsSubstr, Bool.or_eq_true, listStartsWith_iff, ih]
    constructor
    · rintro (⟨t, ht⟩ | ⟨s, t, ht⟩)
      · exact ⟨[], t, by simpa using ht⟩
      · exact ⟨c :: s, t, by simp [ht]⟩
    · rintro ⟨s, t, ht⟩
      cases s with
      | nil => exact Or.inl ⟨t, by simpa using ht⟩
      | cons x xs =>
        rw [List.cons_append, List.cons_append] at ht
        injection ht with h1 h2
        exact Or.inr ⟨xs, t, by simpa using h2⟩

theorem pyIn_trans {a b c : String} (h1 : pyIn a b = true) (h2 : pyIn b c = true) :
    pyIn a c = true := by
  rw [pyIn, listIsSubstr_iff] at h1 h2 ⊢
  obtain ⟨s1, t1, e1⟩ := h1
  obtain ⟨s2, t2, e2⟩ := h2
  exact ⟨s2 ++ s1, t1 ++ t2, by rw [e2, e1]; simp⟩

/-! ### Acronym extraction versus word-boundary tokens -/

/-- The chunks a character list splits into at non-word characters; the
word-boundary tokens are exactly the nonempty chunks. -/
def wordChunks (l : List Char) : List (List Char) :=
  l.splitOnP (fun c => !isWordChar c)

/-- Modelled from the spec claim's words: the word-boundary tokens of a
term — its maximal runs of word characters. -/
def wordTokens (l : List Char) : List (List Char) :=
  (wordChunks l).filter (fun t => !t.isEmpty)

theorem acronymChars_eq_tokenHeads :
    ∀ l : List Char,
      acronymChars false l = (wordTokens l).map (fun t => t.headD ' ') ∧
      acronymChars true l =
        (((wordChunks l).tail).filter (fun t => !t.isEmpty)).map (fun t => t.headD ' ') := by
  intro l
  induction l with
  | nil => simp [acronymChars, wordTokens, wordChunks, List.splitOnP_nil]
  | cons c rest ih =>
    obtain ⟨ihA, ihB⟩ := ih
    by_cases hw : isWordChar c
    · obtain ⟨h0, hs, hchunks⟩ :
          ∃ h0 hs, wordChunks rest = h0 :: hs := by
        rcases h : wordChunks rest with _ | ⟨h0, hs⟩
        · exact absurd h (List.splitOnP_ne_nil _ rest)
        · exact ⟨h0, hs, rfl⟩
      have hsplit : wordChunks (c :: rest) = (c :: h0) :: hs := by
        rw [wordChunks, List.splitOnP_cons, if_neg (by simp [hw]), ← wordChunks, hchunks]
        rfl
      constructor
      · rw [acronymChars, if_pos hw]
        simp only [ihB, hchunks, List.tail_cons]
        rw [wordTokens, hsplit, List.filter_cons_of_pos (by simp)]
        simp
      · rw [acronymChars, if_pos hw]
        rw [ihB, hchunks, hsplit]
        simp
    · have hsplit : wordChunks (c :: rest) = [] :: wordChunks rest := by
        rw [wordChunks, List.splitOnP_cons, if_pos (by simp [hw])]
        rfl
      constructor
      · rw [acronymChars, if_neg hw, ihA]
        simp [wordTokens, hsplit]
      · rw [acronymChars, if_neg hw, ihA]
        simp [wordTokens, hsplit]

/-! ### Collation invariants -/

/-- First-encounter insertion: append a key only when it is new. -/
def insertNew (ks : List BKey) (k : BKey) : List BKey :=
  if k ∈ ks then ks else ks ++ [k]

/-- The distinct keys of a list, in the order each was first encountered. -/
def firstSeen (l : List BKey) : List BKey := l.foldl insertNew []

/-- The raw entries that contribute to the booking with key `k`: the
non-placeholder entries whose `(title, start, end)` equals `k`, in source
order. -/
def entriesForKey (entries : List RawEntry) (k : BKey) : List RawEntry :=
  entries.filter (fun e => !decide (e.title ∈ reservedTitles) && decide (ekey e = k))

theorem hasKey_iff (acc : List (BKey × Booking)) (k : BKey) :
    hasKey acc k = true ↔ k ∈ acc.map (fun p => p.1) := by
  rw [hasKey, List.any_eq_true]
  simp only [decide_eq_true_eq, List.mem_map]

theorem appendRoom_map_fst (k : BKey) (room : String) (acc : List (BKey × Booking)) :
    (appendRoom k room acc).map (fun p => p.1) = acc.map (fun p => p.1) := by
  induction acc with
  | nil => rfl
  | cons p rest ih =>
    by_cases h : p.1 = k <;> simp [appendRoom, h, ih]

theorem appendRoom_split (k : BKey) (room : String) :
    ∀ acc : List (BKey × Booking), k ∈ acc.map (fun p => p.1) →
    (acc.map (fun p => p.1)).Nodup →
    ∃ l1 b l2, acc = l1 ++ (k, b) :: l2 ∧
      appendRoom k room acc = l1 ++ (k, { b with rooms := b.rooms ++ [room] }) :: l2 ∧
      (∀ q ∈ l1, q.1 ≠ k) ∧ (∀ q ∈ l2, q.1 ≠ k) := by
  intro acc
  induction acc with
  | nil => simp
  | cons p rest ih =>
    intro hmem hnd
    rw [List.map_cons, List.nodup_cons] at hnd
    by_cases hp : p.1 = k
    · refine ⟨[], p.2, rest, ?_, ?_, by simp, ?_⟩
      · rw [List.nil_append, ← hp]
      · simp [appendRoom, hp]
      · intro q hq hqk
        exact hnd.1 (by rw [← hp] at hqk; exact hqk ▸ List.mem_map_of_mem (fun p => p.1) hq)
    · have hmem' : k ∈ rest.map (fun p => p.1) := by
        rw [List.map_cons, List.mem_cons] at hmem
        rcases hmem with h | h
        · exact absurd h.symm hp
        · exact h
      obtain ⟨l1, b, l2, e1, e2, h1, h2⟩ := ih hmem' hnd.2
      refine ⟨p :: l1, b, l2, by simp [e1], ?_, ?_, h2⟩
      · rw [List.cons_append]
        rw [← e2]
        simp [appendRoom, hp]
      · intro q hq
        rcases List.mem_cons.mp hq with h | h
        · exact h ▸ hp
        · exact h1 q h

/-- What collation guarantees about one collated association-list entry
after the raw entries in `processed` have been consumed: the booking's
scalar fields come from the first raw entry carrying its key, its
description was fetched (if at all) for that first entry's id only, and its
rooms are the resolved room names of all entries carrying the key, in
source order. -/
def ContentOk (reg : List (String × RoomInfo)) (fetch : Int → String) (gd : Bool)
    (processed : List RawEntry) (p : BKey × Booking) : Prop :=
  ∃ e0 es, entriesForKey processed p.1 = e0 :: es ∧
    p.2.id = e0.id ∧ p.2.title = e0.title ∧ p.2.start = e0.start ∧ p.2.end_ = e0.end_ ∧
    p.2.description = (if gd then fetch e0.id else "") ∧
    p.2.rooms = (e0 :: es).filterMap (fun e => lookupRoom reg e.color)

theorem entriesForKey_append (l1 l2 : List RawEntry) (k : BKey) :
    entriesForKey (l1 ++ l2) k = entriesForKey l1 k ++ entriesForKey l2 k := by
  simp [entriesForKey, List.filter_append]

theorem entriesForKey_single_skip {e : RawEntry} {k : BKey}
    (h : e.title ∈ reservedTitles ∨ ekey e ≠ k) :
    entriesForKey [e] k = [] := by
  rcases h with h | h <;> simp [entriesForKey, h]

theorem entriesForKey_single_keep {e : RawEntry} {k : BKey}
    (h1 : e.title ∉ reservedTitles) (h2 : ekey e = k) :
    entriesForKey [e] k = [e] := by
  simp [entriesForKey, h1, h2]

theorem ContentOk_extend {reg : List (String × RoomInfo)} {fetch : Int → String} {gd : Bool}
    {processed : List RawEntry} {p : BKey × Booking}
    (h : ContentOk reg fetch gd processed p) (e : RawEntry)
    (he : e.title ∈ reservedTitles ∨ ekey e ≠ p.1) :
    ContentOk reg fetch gd (processed ++ [e]) p := by
  obtain ⟨e0, es, h1, hs⟩ := h
  exact ⟨e0, es,
    by rw [entriesForKey_append, entriesForKey_single_skip he, List.append_nil, h1], hs⟩

theorem ContentOk_props {reg : List (String × RoomInfo)} {fetch : Int → String} {gd : Bool}
    {processed : List RawEntry} {p : BKey × Booking}
    (h : ContentOk reg fetch gd processed p) :
    bkey p.2 = p.1 ∧ p.2.title ∉ reservedTitles := by
  obtain ⟨e0, es, h1, hid, ht, hs, he, hd, hr⟩ := h
  have hmem : e0 ∈ entriesForKey processed p.1 := by
    rw [h1]; exact List.mem_cons_self _ _
  rw [entriesForKey, List.mem_filter] at hmem
  obtain ⟨-, hpred⟩ := hmem
  rw [Bool.and_eq_true, Bool.not_eq_true', decide_eq_false_iff_not, decide_eq_true_eq] at hpred
  refine ⟨?_, by rw [ht]; exact hpred.1⟩
  rw [bkey, ht, hs, he, ← hpred.2, ekey]

theorem nodup_append_singleton {α : Type} {l : List α} {a : α}
    (h : l.Nodup) (ha : a ∉ l) : (l ++ [a]).Nodup := by
  rw [List.nodup_append]
  refine ⟨h, List.nodup_singleton a, ?_⟩
  intro x hx hxa
  rw [List.mem_singleton] at hxa
  exact ha (hxa ▸ hx)

theorem collate_inv (reg : List (String × RoomInfo)) (fetch : Int → String) (gd : Bool) :
    ∀ (entries processed : List RawEntry) (acc res : List (BKey × Booking)),
    collate reg fetch gd entries acc = some res →
    (acc.map (fun p => p.1)).Nodup →
    (∀ p ∈ acc, ContentOk reg fetch gd processed p) →
    (∀ e ∈ processed, e.title ∉ reservedTitles → ekey e ∈ acc.map (fun p => p.1)) →
    (res.map (fun p => p.1)).Nodup ∧
    (∀ p ∈ res, ContentOk reg fetch gd (processed ++ entries) p) ∧
    (∀ e ∈ processed ++ entries, e.title ∉ reservedTitles →
      ekey e ∈ res.map (fun p => p.1)) ∧
    res.map (fun p => p.1) =
      ((entries.filter (fun e => !decide (e.title ∈ reservedTitles))).map ekey).foldl
        insertNew (acc.map (fun p => p.1)) := by
  intro entries
  induction entries with
  | nil =>
    intro processed acc res h hnd hok hcov
    rw [collate] at h
    injection h with h
    subst h
    exact ⟨hnd, by simpa using hok, by simpa using hcov, by simp⟩
  | cons e rest ih =>
    intro processed acc res h hnd hok hcov
    rw [collate] at h
    by_cases hres : e.title ∈ reservedTitles
    · rw [if_pos hres] at h
      have hok' : ∀ p ∈ acc, ContentOk reg fetch gd (processed ++ [e]) p :=
        fun p hp => ContentOk_extend (hok p hp) e (Or.inl hres)
      have hcov' : ∀ e' ∈ processed ++ [e], e'.title ∉ reservedTitles →
          ekey e' ∈ acc.map (fun p => p.1) := by
        intro e' he' hres'
        rcases List.mem_append.mp he' with h' | h'
        · exact hcov e' h' hres'
        · rw [List.mem_singleton] at h'
          exact absurd (h' ▸ hres) hres'
      obtain ⟨c1, c2, c3, c4⟩ := ih (processed ++ [e]) acc res h hnd hok' hcov'
      have hassoc : processed ++ [e] ++ rest = processed ++ e :: rest := by
        rw [List.append_assoc, List.singleton_append]
      refine ⟨c1, ?_, ?_, ?_⟩
      · intro p hp
        exact hassoc ▸ c2 p hp
      · intro e' he' hres'
        exact c3 e' (hassoc ▸ he') hres'
      · rw [List.filter_cons_of_neg (by simp [hres])]
        exact c4
    · rw [if_neg hres] at h
      rcases hlook : lookupRoom reg e.color with _ | room
      · simp only [hlook] at h
        exact Option.noConfusion h
      · simp only [hlook] at h
        have hassoc : processed ++ [e] ++ rest = processed ++ e :: rest := by
          rw [List.append_assoc, List.singleton_append]
        by_cases hk : hasKey acc (ekey e)
        · rw [if_pos hk] at h
          have hkmem := (hasKey_iff acc (ekey e)).mp hk
          obtain ⟨l1, b, l2, hsplit, happ, hl1, hl2⟩ :=
            appendRoom_split (ekey e) room acc hkmem hnd
          have hnd' : ((appendRoom (ekey e) room acc).map (fun p => p.1)).Nodup := by
            rw [appendRoom_map_fst]; exact hnd
          have hok' : ∀ p ∈ appendRoom (ekey e) room acc,
              ContentOk reg fetch gd (processed ++ [e]) p := by
            intro p hp
            rw [happ] at hp
            rcases List.mem_append.mp hp with hp1 | hp2
            · refine ContentOk_extend (hok p ?_) e (Or.inr ?_)
              · rw [hsplit]; exact List.mem_append_left _ hp1
              · exact fun heq => (hl1 p hp1) heq.symm
            · rcases List.mem_cons.mp hp2 with hp2 | hp2
              · subst hp2
                have hbmem : ((ekey e : BKey), b) ∈ acc := by
                  rw [hsplit]
                  exact List.mem_append_right _ (List.mem_cons_self _ _)
                obtain ⟨e0, es, hefk, hid, ht, hs2, he2, hd, hr⟩ := hok _ hbmem
                refine ⟨e0, es ++ [e], ?_, hid, ht, hs2, he2, hd, ?_⟩
                · rw [entriesForKey_append, hefk,
                    entriesForKey_single_keep hres rfl, List.cons_append]
                · show b.rooms ++ [room] = _
                  rw [hr, ← List.cons_append, List.filterMap_append]
                  simp [hlook]
              · refine ContentOk_extend (hok p ?_) e (Or.inr ?_)
                · rw [hsplit]
                  exact List.mem_append_right _ (List.mem_cons_of_mem _ hp2)
                · exact fun heq => (hl2 p hp2) heq.symm
          have hcov' : ∀ e' ∈ processed ++ [e], e'.title ∉ reservedTitles →
              ekey e' ∈ (appendRoom (ekey e) room acc).map (fun p => p.1) := by
            intro e' he' hres'
            rw [appendRoom_map_fst]
            rcases List.mem_append.mp he' with h' | h'
            · exact hcov e' h' hres'
            · rw [List.mem_singleton] at h'
              subst h'
              exact hkmem
          obtain ⟨c1, c2, c3, c4⟩ :=
            ih (processed ++ [e]) (appendRoom (ekey e) room acc) res h hnd' hok' hcov'
          refine ⟨c1, ?_, ?_, ?_⟩
          · intro p hp
            exact hassoc ▸ c2 p hp
          · intro e' he' hres'
            exact c3 e' (hassoc ▸ he') hres'
          · rw [List.filter_cons_of_pos (by simp [hres]), List.map_cons, List.foldl_cons,
              insertNew, if_pos hkmem]
            rw [appendRoom_map_fst] at c4
            exact c4
        · rw [if_neg hk] at h
          have hknot : (ekey e : BKey) ∉ acc.map (fun p => p.1) :=
            fun hm => hk ((hasKey_iff acc (ekey e)).mpr hm)
          obtain ⟨value, hv⟩ : ∃ value : Booking,
              value = { id := e.id, title := e.title, start := e.start, end_ := e.end_,
                        rooms := [room], description := if gd then fetch e.id else "" } :=
            ⟨_, rfl⟩
          rw [← hv] at h
          have hmapfst : (acc ++ [(ekey e, value)]).map (fun p => p.1)
              = acc.map (fun p => p.1) ++ [ekey e] := by
            rw [List.map_append]; rfl
          have hnd' : ((acc ++ [(ekey e, value)]).map (fun p => p.1)).Nodup := by
            rw [hmapfst]; exact nodup_append_singleton hnd hknot
          have hok' : ∀ p ∈ acc ++ [(ekey e, value)],
              ContentOk reg fetch gd (processed ++ [e]) p := by
            intro p hp
            rcases List.mem_append.mp hp with hp1 | hp2
            · refine ContentOk_extend (hok p hp1) e (Or.inr ?_)
              intro heq
              exact hknot (heq ▸ List.mem_map_of_mem (fun p => p.1) hp1)
            · rw [List.mem_singleton] at hp2
              subst hp2
              have hempty : entriesForKey processed (ekey e) = [] := by
                rw [entriesForKey, List.filter_eq_nil_iff]
                intro e' he'
                rw [Bool.and_eq_true, Bool.not_eq_true', decide_eq_false_iff_not,
                  decide_eq_true_eq]
                rintro ⟨hres2, hkey2⟩
                exact hknot (hkey2 ▸ hcov e' he' hres2)
              refine ⟨e, [], ?_, by rw [hv], by rw [hv], by rw [hv], by rw [hv],
                by rw [hv], by rw [hv]; simp [hlook]⟩
              rw [entriesForKey_append, hempty, List.nil_append,
                entriesForKey_single_keep hres rfl]
          have hcov' : ∀ e' ∈ processed ++ [e], e'.title ∉ reservedTitles →
              ekey e' ∈ (acc ++ [(ekey e, value)]).map (fun p => p.1) := by
            intro e' he' hres'
            rw [hmapfst]
            rcases List.mem_append.mp he' with h' | h'
            · exact List.mem_append_left _ (hcov e' h' hres')
            · rw [List.mem_singleton] at h'
              subst h'
              exact List.mem_append_right _ (List.mem_singleton.mpr rfl)
          obtain ⟨c1, c2, c3, c4⟩ := ih (processed ++ [e]) _ res h hnd' hok' hcov'
          refine ⟨c1, ?_, ?_, ?_⟩
          · intro p hp
            exact hassoc ▸ c2 p hp
          · intro e' he' hres'
            exact c3 e' (hassoc ▸ he') hres'
          · rw [List.filter_cons_of_pos (by simp [hres]), List.map_cons, List.foldl_cons,
              insertNew, if_neg hknot]
            rw [hmapfst] at c4
            exact c4

theorem collate_filter (reg : List (String × RoomInfo)) (fetch : Int → String) (gd : Bool) :
    ∀ (entries : List RawEntry) (acc : List (BKey × Booking)),
    collate reg fetch gd (entries.filter (fun e => !decide (e.title ∈ reservedTitles))) acc
      = collate reg fetch gd entries acc := by
  intro entries
  induction entries with
  | nil => intro acc; rfl
  | cons e rest ih =>
    intro acc
    by_cases hres : e.title ∈ reservedTitles
    · rw [List.filter_cons_of_neg (by simp [hres]), ih, collate, if_pos hres]
    · rw [List.filter_cons_of_pos (by simp [hres]), collate, collate,
        if_neg hres, if_neg hres]
      rcases hlook : lookupRoom reg e.color with _ | room
      · simp only [hlook]
      · simp only [hlook]
        by_cases hk : hasKey acc (ekey e)
        · rw [if_pos hk, if_pos hk, ih]
        · rw [if_neg hk, if_neg hk, ih]

theorem get_bookings_unfold {reg : List (String × RoomInfo)} {fetch : Int → String}
    {gd : Bool} {entries : List RawEntry} {bs : List Booking}
    (h : get_bookings reg fetch gd entries = some bs) :
    ∃ res, collate reg fetch gd entries [] = some res ∧ bs = res.map (fun p => p.2) := by
  rw [get_bookings, Option.map_eq_some'] at h
  obtain ⟨res, h1, h2⟩ := h
  exact ⟨res, h1, h2.symm⟩

theorem get_bookings_inv {reg : List (String × RoomInfo)} {fetch : Int → String}
    {gd : Bool} {entries : List RawEntry} {bs : List Booking}
    (h : get_bookings reg fetch gd entries = some bs) :
    ∃ res : List (BKey × Booking), bs = res.map (fun p => p.2) ∧
      (res.map (fun p => p.1)).Nodup ∧
      (∀ p ∈ res, ContentOk reg fetch gd entries p) ∧
      (∀ e ∈ entries, e.title ∉ reservedTitles → ekey e ∈ res.map (fun p => p.1)) ∧
      res.map (fun p => p.1) =
        firstSeen ((entries.filter (fun e => !decide (e.title ∈ reservedTitles))).map ekey) := by
  obtain ⟨res, hc, hbs⟩ := get_bookings_unfold h
  obtain ⟨c1, c2, c3, c4⟩ := collate_inv reg fetch gd entries [] [] res hc
    (by simp) (by simp) (by simp)
  exact ⟨res, hbs, c1, by simpa using c2, by simpa using c3, c4⟩

theorem bs_map_bkey {reg : List (String × RoomInfo)} {fetch : Int → String} {gd : Bool}
    {entries : List RawEntry} {res : List (BKey × Booking)}
    (hok : ∀ p ∈ res, ContentOk reg fetch gd entries p) :
    (res.map (fun p => p.2)).map bkey = res.map (fun p => p.1) := by
  rw [List.map_map]
  exact List.map_congr_left (fun p hp => (ContentOk_props (hok p hp)).1)

/-! ### Claims about `get_bookings` -/

/-- C1: for every raw entry sequence accepted by `get_bookings`, no two
returned Bookings share a `(title, start, end)` key, and the key of every
non-placeholder raw entry is represented among the returned Bookings — each
distinct key yields exactly one Booking. -/
theorem get_bookings_keys_unique (reg : List (String × RoomInfo)) (fetch : Int → String)
    (gd : Bool) (entries : List RawEntry) (bs : List Booking)
    (h : get_bookings reg fetch gd entries = some bs) :
    (bs.map bkey).Nodup ∧
    ∀ e ∈ entries, e.title ∉ reservedTitles → ekey e ∈ bs.map bkey := by
  obtain ⟨res, hbs, c1, c2, c3, -⟩ := get_bookings_inv h
  subst hbs
  rw [bs_map_bkey c2]
  exact ⟨c1, c3⟩

theorem get_bookings_keys_unique_witness :
    (([{ id := 10, title := "Yoga", start := "T1", end_ := "T2",
         rooms := ["Hall A", "Hall B"], description := "" },
       { id := 12, title := "Pilates", start := "T1", end_ := "T2",
         rooms := ["Hall B"], description := "" }] : List Booking).map bkey).Nodup ∧
    ekey ⟨11, "Yoga", "T1", "T2", "#000"⟩ ∈
      ([{ id := 10, title := "Yoga", start := "T1", end_ := "T2",
          rooms := ["Hall A", "Hall B"], description := "" },
        { id := 12, title := "Pilates", start := "T1", end_ := "T2",
          rooms := ["Hall B"], description := "" }] : List Booking).map bkey := by
  have hmain := get_bookings_keys_unique
    [("#fff", ⟨1, "Hall A", "#fff"⟩), ("#000", ⟨2, "Hall B", "#000"⟩)]
    (fun _ => "") false
    [⟨10, "Yoga", "T1", "T2", "#fff"⟩, ⟨11, "Yoga", "T1", "T2", "#000"⟩,
     ⟨12, "Pilates", "T1", "T2", "#000"⟩]
    [{ id := 10, title := "Yoga", start := "T1", end_ := "T2",
       rooms := ["Hall A", "Hall B"], description := "" },
     { id := 12, title := "Pilates", start := "T1", end_ := "T2",
       rooms := ["Hall B"], description := "" }]
    (by decide)
  exact ⟨hmain.1, hmain.2 ⟨11, "Yoga", "T1", "T2", "#000"⟩ (by decide) (by decide)⟩

/-- C9: the Bookings come out in the order in which their keys were first
encountered while scanning the raw entries in source order. -/
theorem get_bookings_first_seen_order (reg : List (String × RoomInfo)) (fetch : Int → String)
    (gd : Bool) (entries : List RawEntry) (bs : List Booking)
    (h : get_bookings reg fetch gd entries = some bs) :
    bs.map bkey =
      firstSeen ((entries.filter (fun e => !decide (e.title ∈ reservedTitles))).map ekey) := by
  obtain ⟨res, hbs, -, c2, -, c4⟩ := get_bookings_inv h
  subst hbs
  rw [bs_map_bkey c2]
  exact c4

theorem get_bookings_first_seen_order_witness :
    ([{ id := 10, title := "Yoga", start := "T1", end_ := "T2",
        rooms := ["Hall A", "Hall B"], description := "" },
      { id := 12, title := "Pilates", start := "T1", end_ := "T2",
        rooms := ["Hall B"], description := "" }] : List Booking).map bkey =
      firstSeen ((([⟨10, "Yoga", "T1", "T2", "#fff"⟩, ⟨11, "Yoga", "T1", "T2", "#000"⟩,
        ⟨12, "Pilates", "T1", "T2", "#000"⟩] : List RawEntry).filter
          (fun e => !decide (e.title ∈ reservedTitles))).map ekey) :=
  get_bookings_first_seen_order
    [("#fff", ⟨1, "Hall A", "#fff"⟩), ("#000", ⟨2, "Hall B", "#000"⟩)]
    (fun _ => "") false
    [⟨10, "Yoga", "T1", "T2", "#fff"⟩, ⟨11, "Yoga", "T1", "T2", "#000"⟩,
     ⟨12, "Pilates", "T1", "T2", "#000"⟩]
    [{ id := 10, title := "Yoga", start := "T1", end_ := "T2",
       rooms := ["Hall A", "Hall B"], description := "" },
     { id := 12, title := "Pilates", start := "T1", end_ := "T2",
       rooms := ["Hall B"], description := "" }]
    (by decide)

/-- C8: no returned Booking carries a reserved placeholder title, and the
placeholder entries contribute nothing at all: deleting them from the raw
input leaves the result unchanged. -/
theorem get_bookings_excludes_placeholders (reg : List (String × RoomInfo))
    (fetch : Int → String) (gd : Bool) (entries : List RawEntry) (bs : List Booking)
    (h : get_bookings reg fetch gd entries = some bs) :
    (∀ b ∈ bs, b.title ∉ reservedTitles) ∧
    get_bookings reg fetch gd
      (entries.filter (fun e => !decide (e.title ∈ reservedTitles))) = some bs := by
  constructor
  · obtain ⟨res, hbs, -, c2, -, -⟩ := get_bookings_inv h
    subst hbs
    intro b hb
    obtain ⟨p, hp, rfl⟩ := List.mem_map.mp hb
    exact (ContentOk_props (c2 p hp)).2
  · rw [get_bookings, collate_filter]
    exact h

theorem get_bookings_excludes_placeholders_witness :
    ("Yoga" : String) ∉ reservedTitles ∧
    get_bookings [("#fff", ⟨1, "Hall A", "#fff"⟩)] (fun _ => "") false
      (([⟨10, "Yoga", "T1", "T2", "#fff"⟩, ⟨12, "Private Booking", "T3", "T4", "#fff"⟩,
         ⟨13, "Provisional Booking", "T3", "T4", "#fff"⟩] : List RawEntry).filter
        (fun e => !decide (e.title ∈ reservedTitles)))
      = some [{ id := 10, title := "Yoga", start := "T1", end_ := "T2",
                rooms := ["Hall A"], description := "" }] := by
  have hmain := get_bookings_excludes_placeholders [("#fff", ⟨1, "Hall A", "#fff"⟩)]
    (fun _ => "") false
    [⟨10, "Yoga", "T1", "T2", "#fff"⟩, ⟨12, "Private Booking", "T3", "T4", "#fff"⟩,
     ⟨13, "Provisional Booking", "T3", "T4", "#fff"⟩]
    [{ id := 10, title := "Yoga", start := "T1", end_ := "T2",
       rooms := ["Hall A"], description := "" }]
    (by decide)
  constructor
  · exact hmain.1
      { id := 10, title := "Yoga", start := "T1", end_ := "T2",
        rooms := ["Hall A"], description := "" }
      (by decide)
  · exact hmain.2

/-- C10: when several raw entries share one key, the surviving Booking's
`id`, `title`, `start`, `end` and (when `get_desc` is set) fetched
description all come from the first such entry in source order, and the
later entries contribute exactly their resolved room names, in order. -/
theorem get_bookings_first_entry_wins (reg : List (String × RoomInfo))
    (fetch : Int → String) (gd : Bool) (entries : List RawEntry) (bs : List Booking)
    (h : get_bookings reg fetch gd entries = some bs) :
    ∀ b ∈ bs, ∃ e0 es, entriesForKey entries (bkey b) = e0 :: es ∧
      b.id = e0.id ∧ b.title = e0.title ∧ b.start = e0.start ∧ b.end_ = e0.end_ ∧
      b.description = (if gd then fetch e0.id else "") ∧
      b.rooms = (e0 :: es).filterMap (fun e => lookupRoom reg e.color) := by
  obtain ⟨res, hbs, -, c2, -, -⟩ := get_bookings_inv h
  subst hbs
  intro b hb
  obtain ⟨p, hp, rfl⟩ := List.mem_map.mp hb
  have hkey := (ContentOk_props (c2 p hp)).1
  obtain ⟨e0, es, hefk, hrest⟩ := c2 p hp
  exact ⟨e0, es, by rw [hkey]; exact hefk, hrest⟩

theorem get_bookings_first_entry_wins_witness :
    ∃ e0 es, entriesForKey
        [⟨10, "Yoga", "T1", "T2", "#fff"⟩, ⟨11, "Yoga", "T1", "T2", "#000"⟩]
        (bkey { id := 10, title := "Yoga", start := "T1", end_ := "T2",
                rooms := ["Hall A", "Hall B"], description := "d10" }) = e0 :: es ∧
      (10 : Int) = e0.id ∧ ("Yoga" : String) = e0.title ∧ ("T1" : String) = e0.start ∧
      ("T2" : String) = e0.end_ ∧
      ("d10" : String) = (if true then (fun i => "d" ++ toString i) e0.id else "") ∧
      (["Hall A", "Hall B"] : List String) =
        (e0 :: es).filterMap (fun e =>
          lookupRoom [("#fff", ⟨1, "Hall A", "#fff"⟩), ("#000", ⟨2, "Hall B", "#000"⟩)] e.color) :=
  get_bookings_first_entry_wins
    [("#fff", ⟨1, "Hall A", "#fff"⟩), ("#000", ⟨2, "Hall B", "#000"⟩)]
    (fun i => "d" ++ toString i) true
    [⟨10, "Yoga", "T1", "T2", "#fff"⟩, ⟨11, "Yoga", "T1", "T2", "#000"⟩]
    [{ id := 10, title := "Yoga", start := "T1", end_ := "T2",
       rooms := ["Hall A", "Hall B"], description := "d10" }]
    (by decide)
    { id := 10, title := "Yoga", start := "T1", end_ := "T2",
      rooms := ["Hall A", "Hall B"], description := "d10" }
    (by decide)

/-- C6: two raw entries with one shared key and colours resolving to rooms
`n1` then `n2` collapse into a single Booking whose rooms are `[n1, n2]`
in that order, with the first entry's id. -/
theorem get_bookings_two_entry_merge (reg : List (String × RoomInfo)) (fetch : Int → String)
    (gd : Bool) (e1 e2 : RawEntry) (n1 n2 : String)
    (hres : e1.title ∉ reservedTitles)
    (ht : e2.title = e1.title) (hs : e2.start = e1.start) (he : e2.end_ = e1.end_)
    (h1 : lookupRoom reg e1.color = some n1) (h2 : lookupRoom reg e2.color = some n2) :
    get_bookings reg fetch gd [e1, e2] =
      some [{ id := e1.id, title := e1.title, start := e1.start, end_ := e1.end_,
              rooms := [n1, n2], description := if gd then fetch e1.id else "" }] := by
  have hres2 : e2.title ∉ reservedTitles := by rw [ht]; exact hres
  have hk2 : ekey e2 = ekey e1 := by rw [ekey, ekey, ht, hs, he]
  rw [get_bookings, collate, if_neg hres]
  simp only [h1]
  rw [if_neg (by simp [hasKey]), List.nil_append, collate, if_neg hres2]
  simp only [h2]
  rw [if_pos (by simp [hasKey, hk2]), appendRoom, if_pos hk2.symm, collate]
  simp

theorem get_bookings_two_entry_merge_witness :
    get_bookings [("#fff", ⟨1, "Hall A", "#fff"⟩), ("#000", ⟨2, "Hall B", "#000"⟩)]
        (fun _ => "") false
        [⟨10, "Yoga", "T1", "T2", "#fff"⟩, ⟨11, "Yoga", "T1", "T2", "#000"⟩]
      = some [{ id := 10, title := "Yoga", start := "T1", end_ := "T2",
                rooms := ["Hall A", "Hall B"], description := "" }] := by
  have hmain := get_bookings_two_entry_merge
    [("#fff", ⟨1, "Hall A", "#fff"⟩), ("#000", ⟨2, "Hall B", "#000"⟩)]
    (fun _ => "") false
    ⟨10, "Yoga", "T1", "T2", "#fff"⟩ ⟨11, "Yoga", "T1", "T2", "#000"⟩
    "Hall A" "Hall B" (by decide) rfl rfl rfl (by decide) (by decide)
  exact hmain

/-! ### Search invariants -/

theorem set_get_self {α : Type} :
    ∀ (l : List α) (i : Nat) (x : α), l.get? i = some x → l.set i x = l
  | [], _, _, h => by cases h
  | a :: l, 0, x, h => by
    rw [List.get?_cons_zero] at h
    injection h with h
    subst h
    rfl
  | a :: l, i + 1, x, h => by
    rw [List.get?_cons_succ] at h
    simp only [List.set]
    rw [set_get_self l i x h]

theorem drop_map_get {α β : Type} (f : α → β) :
    ∀ (l : List α) (i : Nat) (x : α), l.get? i = some x →
    (l.map f).drop i = f x :: (l.map f).drop (i + 1) := by
  intro l
  induction l with
  | nil => intro i x h; cases h
  | cons a rest ih =>
    intro i x h
    cases i with
    | zero =>
      rw [List.get?_cons_zero] at h
      injection h with h
      subst h
      simp
    | succ n =>
      rw [List.get?_cons_succ] at h
      simpa using ih n x h

theorem drop_succ_sublist {α : Type} :
    ∀ (l : List α) (i : Nat), (l.drop (i + 1)).Sublist (l.drop i)
  | [], _ => by simp
  | _ :: l, 0 => by simpa using List.sublist_cons _ l
  | a :: l, i + 1 => by
    rw [List.drop_succ_cons, List.drop_succ_cons]
    exact drop_succ_sublist l i

theorem scanStep_map_id (fetch : Int → String) (term acrL : String) (i : Nat)
    (st : SearchState) :
    (scanStep fetch term acrL i st).1.bookings.map (fun b => b.id)
      = st.bookings.map (fun b => b.id) := by
  rcases hget : st.bookings.get? i with _ | item
  · simp only [scanStep, hget]
  · have hid : (List.map (fun b => b.id) st.bookings).set i item.id
        = List.map (fun b => b.id) st.bookings := by
      refine set_get_self _ i item.id ?_
      rw [List.get?_map, hget]
      rfl
    simp only [scanStep, hget]
    split_ifs <;> simp [hid]

theorem scanStep_length (fetch : Int → String) (term acrL : String) (i : Nat)
    (st : SearchState) :
    (scanStep fetch term acrL i st).1.bookings.length = st.bookings.length := by
  rcases hget : st.bookings.get? i with _ | item
  · simp only [scanStep, hget]
  · simp only [scanStep, hget]
    split_ifs <;> simp

theorem scanStep_confident (fetch : Int → String) (term acrL : String) (i : Nat)
    (st : SearchState) :
    ∃ δc, (scanStep fetch term acrL i st).1.confident = st.confident ++ δc ∧
      ∀ j ∈ δc, j = i := by
  rcases hget : st.bookings.get? i with _ | item
  · refine ⟨[], ?_, by simp⟩
    simp only [scanStep, hget, List.append_nil]
  · simp only [scanStep, hget]
    split_ifs <;> simp

theorem scanStep_possible (fetch : Int → String) (term acrL : String) (i : Nat)
    (st : SearchState) :
    ∃ δp, (scanStep fetch term acrL i st).1.possible = st.possible ++ δp ∧
      ∀ j ∈ δp, j = i := by
  rcases hget : st.bookings.get? i with _ | item
  · refine ⟨[], ?_, by simp⟩
    simp only [scanStep, hget, List.append_nil]
  · simp only [scanStep, hget]
    split_ifs <;> simp

theorem scanStep_fetchLog (fetch : Int → String) (term acrL : String) (i : Nat)
    (st : SearchState) :
    (scanStep fetch term acrL i st).1.fetchLog = st.fetchLog ∨
      ∃ item, st.bookings.get? i = some item ∧
        (scanStep fetch term acrL i st).1.fetchLog = st.fetchLog ++ [item.id] := by
  rcases hget : st.bookings.get? i with _ | item
  · exact Or.inl (by simp only [scanStep, hget])
  · simp only [scanStep, hget]
    split_ifs <;> simp [hget]

theorem scanFrom_inv (fetch : Int → String) (term acrL : String) :
    ∀ (n i : Nat) (st : SearchState),
      ((scanFrom fetch term acrL n i st).bookings.map (fun b => b.id)
        = st.bookings.map (fun b => b.id)) ∧
      (∃ δc, (scanFrom fetch term acrL n i st).confident = st.confident ++ δc) ∧
      (∃ δp, (scanFrom fetch term acrL n i st).possible = st.possible ++ δp) ∧
      (∃ δf, (scanFrom fetch term acrL n i st).fetchLog = st.fetchLog ++ δf ∧
        δf.Sublist ((st.bookings.map (fun b => b.id)).drop i)) := by
  intro n
  induction n with
  | zero =>
    intro i st
    exact ⟨rfl, ⟨[], by simp [scanFrom]⟩, ⟨[], by simp [scanFrom]⟩,
      ⟨[], by simp [scanFrom], by simp⟩⟩
  | succ n ih =>
    intro i st
    have hid := scanStep_map_id fetch term acrL i st
    have hc := scanStep_confident fetch term acrL i st
    have hp := scanStep_possible fetch term acrL i st
    have hf := scanStep_fetchLog fetch term acrL i st
    rw [scanFrom]
    rcases hstep : scanStep fetch term acrL i st with ⟨st', brk⟩
    rw [hstep] at hid hc hp hf
    cases brk with
    | true =>
      simp only []
      refine ⟨hid, ?_, ?_, ?_⟩
      · obtain ⟨δc, h1, -⟩ := hc
        exact ⟨δc, h1⟩
      · obtain ⟨δp, h1, -⟩ := hp
        exact ⟨δp, h1⟩
      · rcases hf with h1 | ⟨item, hget, h1⟩
        · exact ⟨[], by rw [h1, List.append_nil], by simp⟩
        · refine ⟨[item.id], h1, ?_⟩
          rw [drop_map_get (fun b => b.id) st.bookings i item hget]
          exact (List.nil_sublist _).cons₂ _
    | false =>
      simp only []
      obtain ⟨hid2, ⟨δc2, hc2⟩, ⟨δp2, hp2⟩, ⟨δf2, hf2, hsub2⟩⟩ := ih (i + 1) st'
      refine ⟨by rw [hid2, hid], ?_, ?_, ?_⟩
      · obtain ⟨δc1, h1, -⟩ := hc
        exact ⟨δc1 ++ δc2, by rw [hc2, h1, List.append_assoc]⟩
      · obtain ⟨δp1, h1, -⟩ := hp
        exact ⟨δp1 ++ δp2, by rw [hp2, h1, List.append_assoc]⟩
      · rw [hid] at hsub2
        rcases hf with h1 | ⟨item, hget, h1⟩
        · refine ⟨δf2, by rw [hf2, h1], ?_⟩
          exact hsub2.trans (drop_succ_sublist _ i)
        · refine ⟨item.id :: δf2, ?_, ?_⟩
          · rw [hf2, h1, List.append_assoc]
            rfl
          · rw [drop_map_get (fun b => b.id) st.bookings i item hget]
            exact hsub2.cons₂ _

theorem runTerm_ext (fetch : Int → String) (st : SearchState) (t : String) :
    ∃ δc δp, (runTerm fetch st t).confident = st.confident ++ δc ∧
      (runTerm fetch st t).possible = st.possible ++ δp := by
  rw [runTerm]
  obtain ⟨-, ⟨δc, hc⟩, ⟨δp, hp⟩, -⟩ :=
    scanFrom_inv fetch t (strToLower (acronym t)) st.bookings.length 0 st
  exact ⟨δc, δp, hc, hp⟩

theorem runSearch_ext (fetch : Int → String) :
    ∀ (terms : List String) (st : SearchState),
      ∃ δc δp, (runSearch fetch terms st).confident = st.confident ++ δc ∧
        (runSearch fetch terms st).possible = st.possible ++ δp := by
  intro terms
  induction terms with
  | nil =>
    intro st
    exact ⟨[], [], by simp [runSearch], by simp [runSearch]⟩
  | cons t ts ih =>
    intro st
    obtain ⟨δc1, δp1, h1, h2⟩ := runTerm_ext fetch st t
    obtain ⟨δc2, δp2, h3, h4⟩ := ih (runTerm fetch st t)
    rw [runSearch] at h3 h4
    refine ⟨δc1 ++ δc2, δp1 ++ δp2, ?_, ?_⟩
    · rw [runSearch, List.foldl_cons, h3, h1, List.append_assoc]
    · rw [runSearch, List.foldl_cons, h4, h2, List.append_assoc]

/-! ### Claims about `search` -/

/-- C2: the list `search` returns is exactly the confident matches, in the
order they were appended, followed by the possible matches, in the order
they were appended; growing the term list only appends further matches to
each tier, so no possible match ever precedes a confident match. -/
theorem search_tiers (fetch : Int → String) (bs : List Booking) (terms : List String) :
    (search fetch terms bs =
      (runSearch fetch terms (initState bs)).confident.map
          (resolveB (runSearch fetch terms (initState bs))) ++
        (runSearch fetch terms (initState bs)).possible.map
          (resolveB (runSearch fetch terms (initState bs)))) ∧
    ∀ more : List String, ∃ δc δp,
      (runSearch fetch (terms ++ more) (initState bs)).confident
        = (runSearch fetch terms (initState bs)).confident ++ δc ∧
      (runSearch fetch (terms ++ more) (initState bs)).possible
        = (runSearch fetch terms (initState bs)).possible ++ δp := by
  refine ⟨rfl, ?_⟩
  intro more
  have hsplit : runSearch fetch (terms ++ more) (initState bs)
      = runSearch fetch more (runSearch fetch terms (initState bs)) := by
    simp only [runSearch, List.foldl_append]
  rw [hsplit]
  exact runSearch_ext fetch more (runSearch fetch terms (initState bs))

/-- C4 (amended): during the scan for a single search term, the description
fetcher is invoked at most once per Booking, so when the collated Bookings
carry pairwise distinct ids no id is fetched twice.  (Across several terms
this fails: a term matching the title re-fetches unconditionally — see the
counterexample.) -/
theorem search_single_term_fetch_once (fetch : Int → String) (term : String)
    (bs : List Booking) (h : (bs.map (fun b => b.id)).Nodup) :
    (runSearch fetch [term] (initState bs)).fetchLog.Nodup := by
  obtain ⟨-, -, -, ⟨δf, he, hsub⟩⟩ :=
    scanFrom_inv fetch term (strToLower (acronym term))
      (initState bs).bookings.length 0 (initState bs)
  have hrun : runSearch fetch [term] (initState bs)
      = scanFrom fetch term (strToLower (acronym term))
          (initState bs).bookings.length 0 (initState bs) := rfl
  rw [hrun, he]
  have hlog : (initState bs).fetchLog = [] := rfl
  rw [hlog, List.nil_append]
  rw [List.drop_zero] at hsub
  exact h.sublist hsub

/-- C4 counterexample: with the two terms `"yo"` and `"yoga"`, both matching
the title `"Yoga"` of the booking with id 1, the fetcher is invoked twice
for id 1 within a single search call — the unconditional fetch on a title
match ignores the cached description. -/
theorem search_double_fetch_example :
    (runSearch (fun _ => "hall class") ["yo", "yoga"]
        (initState [{ id := 1, title := "Yoga", start := "s", end_ := "e",
                      rooms := ["R"], description := "" }])).fetchLog = [1, 1] := by
  decide

theorem search_single_term_fetch_once_witness :
    (([{ id := 1, title := "Yoga", start := "s", end_ := "e", rooms := ["R"],
         description := "" },
       { id := 2, title := "Choir", start := "s", end_ := "e", rooms := ["R"],
         description := "" }] : List Booking).map (fun b => b.id)).Nodup ∧
    (runSearch (fun _ => " ") ["pottery"]
      (initState [{ id := 1, title := "Yoga", start := "s", end_ := "e", rooms := ["R"],
                    description := "" },
                  { id := 2, title := "Choir", start := "s", end_ := "e", rooms := ["R"],
                    description := "" }])).fetchLog.Nodup := by
  constructor
  · decide
  · exact search_single_term_fetch_once (fun _ => " ") "pottery"
      [{ id := 1, title := "Yoga", start := "s", end_ := "e", rooms := ["R"],
         description := "" },
       { id := 2, title := "Choir", start := "s", end_ := "e", rooms := ["R"],
         description := "" }]
      (by decide)

/-- The description a booking carries after the guarded fetch of source
lines 136-137: fetched when still empty, otherwise the cached value. -/
def descAfterFetch (fetch : Int → String) (item : Booking) : String :=
  if item.description = "" then fetch item.id else item.description

/-- C5 (amended): the scan for a term stops early exactly at a Booking
whose title does not contain the term but whose title or (fetched)
description contains the acronym: the remaining Bookings are not evaluated
for that term, and that step appends no index other than the current one.
(When the title does contain the term the acronym checks are skipped and
the scan continues — see the counterexample.) -/
theorem scan_stops_on_acronym_hit (fetch : Int → String) (term : String)
    (st : SearchState) (n i : Nat) (item : Booking)
    (hget : st.bookings.get? i = some item)
    (hterm : pyIn (strToLower term) (strToLower item.title) = false)
    (hacr : pyIn (strToLower (acronym term)) (strToLower item.title) = true ∨
            pyIn (strToLower (acronym term)) (strToLower (descAfterFetch fetch item)) = true) :
    scanFrom fetch term (strToLower (acronym term)) (n + 1) i st
      = (scanStep fetch term (strToLower (acronym term)) i st).1 ∧
    (∃ δc, (scanStep fetch term (strToLower (acronym term)) i st).1.confident
        = st.confident ++ δc ∧ ∀ j ∈ δc, j = i) ∧
    (∃ δp, (scanStep fetch term (strToLower (acronym term)) i st).1.possible
        = st.possible ++ δp ∧ ∀ j ∈ δp, j = i) := by
  have hbrk : (scanStep fetch term (strToLower (acronym term)) i st).2 = true := by
    simp only [scanStep, hget]
    split_ifs <;> simp_all [descAfterFetch]
  refine ⟨?_, ?_, ?_⟩
  · rcases hstep : scanStep fetch term (strToLower (acronym term)) i st with ⟨st', brk⟩
    rw [hstep] at hbrk
    have hb : brk = true := hbrk
    subst hb
    rw [scanFrom]
    simp only [hstep]
  · have h := scanStep_confident fetch term (strToLower (acronym term)) i st
    exact h
  · have h := scanStep_possible fetch term (strToLower (acronym term)) i st
    exact h

/-- C5 counterexample: with the single term `"AGM"`, whose acronym `"A"`
occurs case-insensitively in the title `"AGM day"` of the first booking,
the second booking is still evaluated and still added to the result —
there is no early termination when the term itself matches the title. -/
theorem search_no_early_termination_example :
    pyIn (strToLower (acronym "AGM")) (strToLower "AGM day") = true ∧
    search (fun _ => " ") ["AGM"]
      [{ id := 1, title := "AGM day", start := "s", end_ := "e",
         rooms := ["R"], description := "" },
       { id := 2, title := "AGM night", start := "s", end_ := "e",
         rooms := ["R"], description := "" }]
      = [{ id := 1, title := "AGM day", start := "s", end_ := "e",
           rooms := ["R"], description := " " },
         { id := 2, title := "AGM night", start := "s", end_ := "e",
           rooms := ["R"], description := " " }] := by
  decide

theorem scan_stops_on_acronym_hit_witness :
    (scanFrom (fun _ => "quiet room") "quilting" (strToLower (acronym "quilting")) (0 + 1) 0
        (initState [{ id := 3, title := "Pilates", start := "s", end_ := "e",
                      rooms := ["R"], description := "" }])
      = (scanStep (fun _ => "quiet room") "quilting" (strToLower (acronym "quilting")) 0
          (initState [{ id := 3, title := "Pilates", start := "s", end_ := "e",
                        rooms := ["R"], description := "" }])).1) ∧
    (∃ δc, (scanStep (fun _ => "quiet room") "quilting" (strToLower (acronym "quilting")) 0
        (initState [{ id := 3, title := "Pilates", start := "s", end_ := "e",
                      rooms := ["R"], description := "" }])).1.confident
      = (initState [{ id := 3, title := "Pilates", start := "s", end_ := "e",
                      rooms := ["R"], description := "" }]).confident ++ δc ∧
        ∀ j ∈ δc, j = 0) ∧
    (∃ δp, (scanStep (fun _ => "quiet room") "quilting" (strToLower (acronym "quilting")) 0
        (initState [{ id := 3, title := "Pilates", start := "s", end_ := "e",
                      rooms := ["R"], description := "" }])).1.possible
      = (initState [{ id := 3, title := "Pilates", start := "s", end_ := "e",
                      rooms := ["R"], description := "" }]).possible ++ δp ∧
        ∀ j ∈ δp, j = 0) :=
  scan_stops_on_acronym_hit (fun _ => "quiet room") "quilting"
    (initState [{ id := 3, title := "Pilates", start := "s", end_ := "e",
                  rooms := ["R"], description := "" }])
    0 0
    { id := 3, title := "Pilates", start := "s", end_ := "e",
      rooms := ["R"], description := "" }
    (by decide) (by decide) (Or.inr (by decide))

/-- C3 counterexample: the Booking titled "Annual General Meeting" whose
fetched description "bingo night" contains neither "AGM" nor "board" (in
any case) is nonetheless returned by `search ["board"]`: the acronym of
"board" is "B", and "b" occurs in the description. -/
theorem search_board_example :
    pyIn "AGM" "bingo night" = false ∧
    pyIn "board" "bingo night" = false ∧
    pyIn (strToLower "board") (strToLower "bingo night") = false ∧
    search (fun _ => "bingo night") ["board"]
      [{ id := 5, title := "Annual General Meeting", start := "s", end_ := "e",
         rooms := ["R"], description := "" }]
      = [{ id := 5, title := "Annual General Meeting", start := "s", end_ := "e",
           rooms := ["R"], description := "bingo night" }] := by
  decide

/-- C3 (amended): a Booking titled "Annual General Meeting" whose fetched
description contains no occurrence of "AGM" and no occurrence of the
literal term "board" appears in `search ["board"]` if and only if the
acronym "B" of the term occurs case-insensitively in its description — a
literal "board" occurrence is not what governs inclusion. -/
theorem search_board_acronym (fetch : Int → String) (idv : Int) (s e : String)
    (rooms : List String) (d : String) (hd : fetch idv = d)
    (h1 : pyIn "AGM" d = false) (h2 : pyIn "board" d = false) :
    (({ id := idv, title := "Annual General Meeting", start := s, end_ := e,
        rooms := rooms, description := d } : Booking)
      ∈ search fetch ["board"]
          [{ id := idv, title := "Annual General Meeting", start := s, end_ := e,
             rooms := rooms, description := "" }])
      ↔ pyIn (strToLower (acronym "board")) (strToLower d) = true := by
  have hA : pyIn (strToLower "board") (strToLower "Annual General Meeting") = false := by
    decide
  have hB : pyIn (strToLower (acronym "board"))
      (strToLower "Annual General Meeting") = false := by decide
  rcases hm : pyIn (strToLower "board") (strToLower d) with _ | _ <;>
    rcases ha : pyIn (strToLower (acronym "board")) (strToLower d) with _ | _
  · -- no description-term match, no acronym-description match: empty result
    simp only [search, runSearch, List.foldl_cons, List.foldl_nil, runTerm, initState,
      List.length_cons, List.length_nil, scanFrom, scanStep, List.get?_cons_zero, hA, hB,
      hd, hm, ha]
    simp [resolveB, hm, ha]
  · -- acronym hit in the description only: one possible match
    simp only [search, runSearch, List.foldl_cons, List.foldl_nil, runTerm, initState,
      List.length_cons, List.length_nil, scanFrom, scanStep, List.get?_cons_zero, hA, hB,
      hd, hm, ha]
    simp [resolveB, hm, ha]
  · -- impossible: "board" in the description forces "b" in the description
    have hcontra := pyIn_trans
      (show pyIn (strToLower (acronym "board")) (strToLower "board") = true by decide) hm
    rw [ha] at hcontra
    exact absurd hcontra Bool.false_ne_true
  · -- description-term match and acronym hit: the booking appears twice
    simp only [search, runSearch, List.foldl_cons, List.foldl_nil, runTerm, initState,
      List.length_cons, List.length_nil, scanFrom, scanStep, List.get?_cons_zero, hA, hB,
      hd, hm, ha]
    simp [resolveB, hm, ha]

/-- C7: the acronym the code derives from a search term is the uppercased
first character of every word-boundary token of the term, in order; in
particular `acronym "Annual General Meeting" = "AGM"` and
`acronym "yoga" = "Y"`. -/
theorem acronym_tokens (term : String) :
    acronym term =
      String.mk ((wordTokens term.toList).map (fun t => (t.headD ' ').toUpper)) ∧
    acronym "Annual General Meeting" = "AGM" ∧ acronym "yoga" = "Y" := by
  refine ⟨?_, by decide, by decide⟩
  rw [acronym, (acronymChars_eq_tokenHeads term.toList).1, List.map_map]
  rfl

theorem search_board_acronym_witness :
    (({ id := 5, title := "Annual General Meeting", start := "s", end_ := "e",
        rooms := ["R"], description := "bingo night" } : Booking)
      ∈ search (fun _ => "bingo night") ["board"]
          [{ id := 5, title := "Annual General Meeting", start := "s", end_ := "e",
             rooms := ["R"], description := "" }])
      ↔ pyIn (strToLower (acronym "board")) (strToLower "bingo night") = true :=
  search_board_acronym (fun _ => "bingo night") 5 "s" "e" ["R"] "bingo night"
    rfl (by decide) (by decide)
